import Mathlib

/-
Shallow embedding of the `seller` repository (src/seller.py, src/stack.py,
src/primitives.py). Prices and quantities are modelled as rationals (the
Python source uses `int | float`; the spec asks for exact decimal-like
arithmetic). Python's in-place mutation is modelled by explicit state
passing: methods that mutate `self` become functions returning the new value.
-/

namespace SellerRepo

/-- A batch of items purchased at the same price (seller.py `Batch`). -/
structure Batch where
  purchase_price : ℚ
  quantity : ℚ
deriving DecidableEq, Repr

/-- A sale transaction (seller.py `Sale`): item name, unit price, quantity. -/
structure Sale where
  name : String
  price : ℚ
  quantity : ℚ
deriving DecidableEq, Repr

/-- A unit of fulfillment keeping track of the batches used (seller.py `Parcel`). -/
structure Parcel where
  name : String
  price : ℚ
  batches : List Batch
deriving DecidableEq, Repr

/-- An expense incurred (seller.py `Expense`). -/
structure Expense where
  amount : ℚ
  description : String
deriving DecidableEq, Repr

/-- Total quantity of a list of batches (`sum(batch.quantity for batch in ...)`). -/
def sumQ (bs : List Batch) : ℚ :=
  (bs.map (fun b => b.quantity)).sum

/-- Total worth of a list of batches
(`sum(batch.purchase_price * batch.quantity for batch in ...)`). -/
def worth (bs : List Batch) : ℚ :=
  (bs.map (fun b => b.purchase_price * b.quantity)).sum

/-- The FIFO depletion loop of seller.py `Inventory.sell` (lines 210-220),
which is also stack.py `Stack._take` walking from the front: while the
requested quantity is positive and the stack is nonempty, consume the front
batch whole if its quantity is at most the remaining request, otherwise split
it, consuming a fragment of the remaining size and leaving the remainder in
place. Returns (taken batches, remaining stack). -/
def takeF : ℚ → List Batch → List Batch × List Batch
  | _, [] => ([], [])
  | q, b :: rest =>
    if q ≤ 0 then ([], b :: rest)
    else if b.quantity ≤ q then
      let p := takeF (q - b.quantity) rest
      (b :: p.1, p.2)
    else
      ([⟨b.purchase_price, q⟩], ⟨b.purchase_price, b.quantity - q⟩ :: rest)

namespace Stack

/-- stack.py `Stack._take(quantity, index, remove_method)`: `front = true`
is `index=0, remove_method="popleft"`; `front = false` is `index=-1,
remove_method="pop"`. The mutated deque is returned as the second component. -/
def take : Bool → ℚ → List Batch → List Batch × List Batch
  | _, _, [] => ([], [])
  | true, q, b :: rest =>
    if q ≤ 0 then ([], b :: rest)
    else if b.quantity ≤ q then
      let p := take true (q - b.quantity) rest
      (b :: p.1, p.2)
    else
      ([⟨b.purchase_price, q⟩], ⟨b.purchase_price, b.quantity - q⟩ :: rest)
  | false, q, b :: rest =>
    if q ≤ 0 then ([], b :: rest)
    else if ((b :: rest).getLast (List.cons_ne_nil b rest)).quantity ≤ q then
      let p := take false (q - ((b :: rest).getLast (List.cons_ne_nil b rest)).quantity)
        ((b :: rest).dropLast)
      (((b :: rest).getLast (List.cons_ne_nil b rest)) :: p.1, p.2)
    else
      ([⟨((b :: rest).getLast (List.cons_ne_nil b rest)).purchase_price, q⟩],
        (b :: rest).dropLast ++
          [⟨((b :: rest).getLast (List.cons_ne_nil b rest)).purchase_price,
            ((b :: rest).getLast (List.cons_ne_nil b rest)).quantity - q⟩])
termination_by _ _ bs => bs.length
decreasing_by
  all_goals simp [List.length_dropLast]

/-- stack.py `Stack.take_first`: FIFO depletion. -/
def take_first (q : ℚ) (bs : List Batch) : List Batch × List Batch :=
  take true q bs

/-- stack.py `Stack.take_last`: LIFO depletion. -/
def take_last (q : ℚ) (bs : List Batch) : List Batch × List Batch :=
  take false q bs

/-- stack.py `Stack.average_price`: total worth over total quantity, 0 when
the total quantity is 0. -/
def average_price (bs : List Batch) : ℚ :=
  if sumQ bs = 0 then 0 else worth bs / sumQ bs

/-- stack.py `Stack.equalize_prices`: set every batch's purchase price to the
stack's average price. -/
def equalize_prices (bs : List Batch) : List Batch :=
  bs.map (fun b => ⟨average_price bs, b.quantity⟩)

end Stack

/-- seller.py `Parcel.cogs`. -/
def Parcel.cogs (p : Parcel) : ℚ :=
  worth p.batches

/-- seller.py `Parcel.quantity`. -/
def Parcel.quantity (p : Parcel) : ℚ :=
  sumQ p.batches

/-- seller.py `Parcel.sale`. -/
def Parcel.sale (p : Parcel) : Sale :=
  ⟨p.name, p.price, p.quantity⟩

/-- seller.py `Sale.revenue`. -/
def Sale.revenue (s : Sale) : ℚ :=
  s.price * s.quantity

/-- seller.py `Inventory`: per-item batch lists (`hold`, a dict modelled as a
total function defaulting to the empty list, which `sell`/`total` treat the
same as an absent key), the fulfilled parcels and the recorded expenses.
The catalog field is not involved in any ledger operation modelled here. -/
structure Inventory where
  hold : String → List Batch
  fulfilled : List Parcel
  spent : List Expense

/-- The empty inventory (`Inventory()`). -/
def Inventory.empty : Inventory :=
  ⟨fun _ => [], [], []⟩

/-- seller.py `Inventory.total`: total quantity held of one item, 0 when the
item is absent. -/
def Inventory.total (i : Inventory) (name : String) : ℚ :=
  sumQ (i.hold name)

/-- seller.py `Inventory.buy`: append the purchased batch to the item's list,
creating the entry if absent. -/
def Inventory.buy (i : Inventory) (o : Sale) : Inventory :=
  { i with hold := fun n => if n = o.name then i.hold o.name ++ [⟨o.price, o.quantity⟩] else i.hold n }

/-- seller.py `Inventory.pay`: record an expense. -/
def Inventory.pay (i : Inventory) (amount : ℚ) (text : String) : Inventory :=
  { i with spent := i.spent ++ [⟨amount, text⟩] }

/-- seller.py `Inventory.sell` (lines 201-222): return unchanged when the item
is absent or its list is empty, or when the held total is below the requested
quantity; otherwise run the FIFO loop and append the fulfillment parcel
(even when the order quantity is 0, in which case the parcel is empty). -/
def Inventory.sell (i : Inventory) (o : Sale) : Inventory :=
  if i.hold o.name = [] then i
  else if i.total o.name < o.quantity then i
  else
    let p := takeF o.quantity (i.hold o.name)
    { hold := fun n => if n = o.name then p.2 else i.hold n,
      fulfilled := i.fulfilled ++ [⟨o.name, o.price, p.1⟩],
      spent := i.spent }

/-- seller.py `Inventory.sales`. -/
def Inventory.sales (i : Inventory) : List Sale :=
  i.fulfilled.map Parcel.sale

/-- seller.py `Inventory.revenue`. -/
def Inventory.revenue (i : Inventory) : ℚ :=
  (i.sales.map Sale.revenue).sum

/-- seller.py `Inventory.cogs`. -/
def Inventory.cogs (i : Inventory) : ℚ :=
  (i.fulfilled.map Parcel.cogs).sum

/-- seller.py `Inventory.gross_margin`. -/
def Inventory.gross_margin (i : Inventory) : ℚ :=
  i.revenue - i.cogs

/-- seller.py `Inventory.expenses`. -/
def Inventory.expenses (i : Inventory) : ℚ :=
  (i.spent.map Expense.amount).sum

/-- seller.py `Inventory.earned`. -/
def Inventory.earned (i : Inventory) : ℚ :=
  i.gross_margin - i.expenses

/-- Structural description of one FIFO depletion outcome: some prefix of `k`
whole lots is consumed unchanged (each fitting in the then-remaining request),
and either the request is met exactly at that boundary, or exactly one
further lot is split into a consumed fragment of the remaining size and a
remainder left at the front, both carrying the original lot's unit cost. -/
def FifoShape (q : ℚ) (bs taken rem : List Batch) : Prop :=
  ∃ k, k ≤ bs.length ∧
    (∀ j, j < k → sumQ (bs.take (j + 1)) ≤ q) ∧
    ((sumQ (bs.take k) = q ∧ taken = bs.take k ∧ rem = bs.drop k) ∨
     (sumQ (bs.take k) < q ∧ ∃ b r2, bs.drop k = b :: r2 ∧
        q - sumQ (bs.take k) < b.quantity ∧
        taken = bs.take k ++ [⟨b.purchase_price, q - sumQ (bs.take k)⟩] ∧
        rem = ⟨b.purchase_price, b.quantity - (q - sumQ (bs.take k))⟩ :: r2))

/-- The two stock-availability failures named by the spec. -/
inductive SellError where
  | NotInStock
  | InsufficientStock
deriving DecidableEq, Repr

/-- Modelled from the spec: the strict `Seller.sell` exercised by
src/tests/test_inventory.py (`NotInStock`, `InsufficientStock`) whose module
is not under src/. Per spec sections 4.3, 4.4 and 7 it checks availability
before mutating: `NotInStock` when the item key is absent (held list empty),
`InsufficientStock` when on-hand total is below the request; on failure the
ledger is returned unchanged alongside the error; on success it consumes
lots exactly as src/seller.py `Inventory.sell` does. -/
def sellChecked (i : Inventory) (o : Sale) : Inventory × Option SellError :=
  if i.hold o.name = [] then (i, some SellError.NotInStock)
  else if i.total o.name < o.quantity then (i, some SellError.InsufficientStock)
  else (i.sell o, none)

/-- A ledger operation for trace-level properties: a purchase or a sale. -/
inductive Op where
  | buy (name : String) (price quantity : ℚ)
  | sell (name : String) (price quantity : ℚ)
deriving DecidableEq, Repr

/-- Apply one operation to an inventory. -/
def applyOp (i : Inventory) : Op → Inventory
  | Op.buy n p q => i.buy ⟨n, p, q⟩
  | Op.sell n p q => i.sell ⟨n, p, q⟩

/-- Run a finite sequence of operations from the empty inventory. -/
def runOps (ops : List Op) : Inventory :=
  ops.foldl applyOp Inventory.empty

/-- Total quantity purchased for one item over a sequence of operations. -/
def purchased (name : String) : List Op → ℚ
  | [] => 0
  | Op.buy n _ q :: rest => (if n = name then q else 0) + purchased name rest
  | Op.sell _ _ _ :: rest => purchased name rest

/-- Total fragment quantity over all recorded parcels for one item. -/
def parcelsQ (name : String) (i : Inventory) : ℚ :=
  ((i.fulfilled.filter (fun p => p.name = name)).map Parcel.quantity).sum

/-- A concrete inventory used by witnesses: two lots of item "a"
(2 units at cost 1, then 3 units at cost 2). -/
def invAB : Inventory :=
  (Inventory.empty.buy ⟨"a", 1, 2⟩).buy ⟨"a", 2, 3⟩

@[simp]
lemma sumQ_nil : sumQ [] = 0 := rfl

@[simp]
lemma sumQ_cons (b : Batch) (bs : List Batch) : sumQ (b :: bs) = b.quantity + sumQ bs := by
  simp [sumQ]

@[simp]
lemma sumQ_append (l1 l2 : List Batch) : sumQ (l1 ++ l2) = sumQ l1 + sumQ l2 := by
  simp [sumQ]

@[simp]
lemma sumQ_reverse (l : List Batch) : sumQ l.reverse = sumQ l := by
  simp [sumQ, List.sum_reverse]

@[simp]
lemma worth_nil : worth [] = 0 := rfl

@[simp]
lemma worth_cons (b : Batch) (bs : List Batch) :
    worth (b :: bs) = b.purchase_price * b.quantity + worth bs := by
  simp [worth]

lemma sumQ_nonneg (bs : List Batch) (h : ∀ b ∈ bs, 0 ≤ b.quantity) : 0 ≤ sumQ bs := by
  induction bs with
  | nil => simp
  | cons b rest ih =>
    have hb := h b (List.mem_cons_self b rest)
    have hr := ih (fun x hx => h x (List.mem_cons_of_mem b hx))
    simp
    linarith

@[simp]
lemma takeF_nil (q : ℚ) : takeF q [] = ([], []) := rfl

lemma takeF_cons (q : ℚ) (b : Batch) (rest : List Batch) :
    takeF q (b :: rest) =
      if q ≤ 0 then ([], b :: rest)
      else if b.quantity ≤ q then
        (b :: (takeF (q - b.quantity) rest).1, (takeF (q - b.quantity) rest).2)
      else
        ([⟨b.purchase_price, q⟩], ⟨b.purchase_price, b.quantity - q⟩ :: rest) := rfl

lemma takeF_nonpos (q : ℚ) (bs : List Batch) (hq : q ≤ 0) (hbs : bs ≠ []) :
    takeF q bs = ([], bs) := by
  cases bs with
  | nil => exact absurd rfl hbs
  | cons b rest => simp [takeF_cons, hq]

/-- The FIFO loop conserves quantity: taken plus remaining equals the original total. -/
lemma takeF_conserve (q : ℚ) (bs : List Batch) :
    sumQ (takeF q bs).1 + sumQ (takeF q bs).2 = sumQ bs := by
  induction bs generalizing q with
  | nil => simp
  | cons b rest ih =>
    by_cases hq : q ≤ 0
    · simp [takeF_cons, hq]
    · by_cases hb : b.quantity ≤ q
      · have := ih (q - b.quantity)
        simp [takeF_cons, hq, hb]
        linarith
      · simp [takeF_cons, hq, hb]
        ring

/-- When the request is nonnegative and covered by the stack, the taken
batches sum exactly to the request. -/
lemma takeF_sum (q : ℚ) (bs : List Batch) (h0 : 0 ≤ q) (hle : q ≤ sumQ bs) :
    sumQ (takeF q bs).1 = q := by
  induction bs generalizing q with
  | nil =>
    simp at hle ⊢
    linarith
  | cons b rest ih =>
    by_cases hq : q ≤ 0
    · have : q = 0 := le_antisymm hq h0
      simp [takeF_cons, hq, this]
    · by_cases hb : b.quantity ≤ q
      · have h0' : 0 ≤ q - b.quantity := by linarith
        have hle' : q - b.quantity ≤ sumQ rest := by
          simp at hle
          linarith
        have := ih (q - b.quantity) h0' hle'
        simp [takeF_cons, hq, hb, this]
      · simp [takeF_cons, hq, hb, sumQ]

/-- When the request strictly exceeds the total of a stack of nonnegative
batches, the FIFO loop takes everything and leaves the stack empty. -/
lemma takeF_all (q : ℚ) (bs : List Batch) (hnn : ∀ b ∈ bs, 0 ≤ b.quantity)
    (hlt : sumQ bs < q) : takeF q bs = (bs, []) := by
  induction bs generalizing q with
  | nil => simp
  | cons b rest ih =>
    have hb0 := hnn b (List.mem_cons_self b rest)
    have hrest : ∀ x ∈ rest, 0 ≤ x.quantity := fun x hx => hnn x (List.mem_cons_of_mem b hx)
    have hr0 : 0 ≤ sumQ rest := sumQ_nonneg rest hrest
    have hq : ¬ q ≤ 0 := by
      simp at hlt ⊢
      linarith
    have hb : b.quantity ≤ q := by
      simp at hlt
      linarith
    have hlt' : sumQ rest < q - b.quantity := by
      simp at hlt
      linarith
    have := ih (q - b.quantity) hrest hlt'
    simp [takeF_cons, hq, hb, this]

/-- The FIFO loop's outcome always has the front-to-back whole-lots-then-split
shape when the request is nonnegative and covered by the stack. -/
lemma takeF_shape (q : ℚ) (bs : List Batch) (h0 : 0 ≤ q) (hle : q ≤ sumQ bs) :
    FifoShape q bs (takeF q bs).1 (takeF q bs).2 := by
  induction bs generalizing q with
  | nil =>
    have hq0 : q = 0 := le_antisymm (by simpa using hle) h0
    exact ⟨0, by simp, by simp, Or.inl (by simp [hq0])⟩
  | cons b rest ih =>
    by_cases hq : q ≤ 0
    · have hq0 : q = 0 := le_antisymm hq h0
      exact ⟨0, by simp, by simp, Or.inl (by simp [takeF_cons, hq, hq0])⟩
    · by_cases hb : b.quantity ≤ q
      · have h0' : 0 ≤ q - b.quantity := by linarith
        have hle' : q - b.quantity ≤ sumQ rest := by
          simp at hle
          linarith
        obtain ⟨k, hk, hcond, hdisj⟩ := ih (q - b.quantity) h0' hle'
        have ht1 : (takeF q (b :: rest)).1 = b :: (takeF (q - b.quantity) rest).1 := by
          simp [takeF_cons, hq, hb]
        have ht2 : (takeF q (b :: rest)).2 = (takeF (q - b.quantity) rest).2 := by
          simp [takeF_cons, hq, hb]
        have hS : sumQ ((b :: rest).take (k + 1)) = b.quantity + sumQ (rest.take k) := by
          simp [List.take_succ_cons]
        refine ⟨k + 1, by simpa using Nat.succ_le_succ hk, ?_, ?_⟩
        · intro j hj
          cases j with
          | zero => simpa using hb
          | succ j' =>
            have hc := hcond j' (Nat.lt_of_succ_lt_succ hj)
            simp [List.take_succ_cons] at hc ⊢
            linarith
        · rcases hdisj with ⟨hsum, ht, hr⟩ | ⟨hsum, b2, r2, hdrop, hlt2, ht, hr⟩
          · refine Or.inl ⟨?_, ?_, ?_⟩
            · rw [hS]
              linarith
            · rw [ht1, ht, List.take_succ_cons]
            · rw [ht2, hr, List.drop_succ_cons]
          · have hXY : q - b.quantity - sumQ (rest.take k) = q - sumQ (b :: rest.take k) := by
              simp only [sumQ_cons]
              ring
            refine Or.inr ⟨?_, b2, r2, ?_, ?_, ?_, ?_⟩
            · rw [hS]
              linarith
            · rw [List.drop_succ_cons, hdrop]
            · rw [List.take_succ_cons, ← hXY]
              exact hlt2
            · rw [ht1, ht, List.take_succ_cons, hXY]
              simp
            · rw [ht2, hr, List.take_succ_cons, hXY]
      · have hq0 : 0 < q := lt_of_not_le hq
        refine ⟨0, Nat.zero_le _, ?_, Or.inr ?_⟩
        · intro j hj
          exact absurd hj (Nat.not_lt_zero j)
        · refine ⟨by simpa using hq0, b, rest, rfl, by simpa using lt_of_not_le hb, ?_, ?_⟩
          · simp [takeF_cons, hq, hb]
          · simp [takeF_cons, hq, hb]

/-- Unfolding of `Inventory.sell` when both availability guards pass. -/
lemma sell_eq (i : Inventory) (o : Sale) (hne : i.hold o.name ≠ [])
    (hge : ¬ i.total o.name < o.quantity) :
    i.sell o =
      { hold := fun n => if n = o.name then (takeF o.quantity (i.hold o.name)).2 else i.hold n,
        fulfilled := i.fulfilled ++ [⟨o.name, o.price, (takeF o.quantity (i.hold o.name)).1⟩],
        spent := i.spent } := by
  simp [Inventory.sell, hne, hge]

/-- Unfolding of `Inventory.sell` when an availability guard fails: the
inventory is returned unchanged. -/
lemma sell_noop (i : Inventory) (o : Sale)
    (h : i.hold o.name = [] ∨ i.total o.name < o.quantity) : i.sell o = i := by
  rcases h with h | h
  · simp [Inventory.sell, h]
  · by_cases h2 : i.hold o.name = []
    · simp [Inventory.sell, h2]
    · simp [Inventory.sell, h2, h]

/-- C1: for every inventory and sale order whose item is on hand with total
quantity at least the requested quantity q > 0, `sell` records a parcel whose
batches are exactly the FIFO loop's taken batches, leaves the FIFO loop's
remainder as the item's lot list, the taken quantities sum exactly to q, and
the consumption has the front-to-back shape: whole lots consumed unchanged
while they fit, then at most one front lot split into a fragment of the
remaining size and a remainder left in place, both at the original unit cost. -/
theorem sell_fifo_correct (i : Inventory) (o : Sale)
    (hq : 0 < o.quantity) (hle : o.quantity ≤ i.total o.name) :
    (i.sell o).fulfilled =
      i.fulfilled ++ [⟨o.name, o.price, (takeF o.quantity (i.hold o.name)).1⟩] ∧
    (i.sell o).hold o.name = (takeF o.quantity (i.hold o.name)).2 ∧
    sumQ (takeF o.quantity (i.hold o.name)).1 = o.quantity ∧
    FifoShape o.quantity (i.hold o.name) (takeF o.quantity (i.hold o.name)).1
      (takeF o.quantity (i.hold o.name)).2 := by
  have hle' : o.quantity ≤ sumQ (i.hold o.name) := hle
  have hne : i.hold o.name ≠ [] := by
    intro h
    rw [h] at hle'
    simp at hle'
    linarith
  have hge : ¬ i.total o.name < o.quantity := not_lt.mpr hle
  rw [sell_eq i o hne hge]
  exact ⟨rfl, by simp, takeF_sum _ _ (le_of_lt hq) hle',
    takeF_shape _ _ (le_of_lt hq) hle'⟩

/-- C1 witness: the FIFO sale property evaluated on a concrete two-lot inventory. -/
theorem sell_fifo_correct_witness :
    0 < (Sale.mk "a" 5 3).quantity ∧ (Sale.mk "a" 5 3).quantity ≤ invAB.total "a" ∧
    ((invAB.sell ⟨"a", 5, 3⟩).fulfilled =
      invAB.fulfilled ++ [⟨"a", 5, (takeF 3 (invAB.hold "a")).1⟩] ∧
    (invAB.sell ⟨"a", 5, 3⟩).hold "a" = (takeF 3 (invAB.hold "a")).2 ∧
    sumQ (takeF 3 (invAB.hold "a")).1 = 3 ∧
    FifoShape 3 (invAB.hold "a") (takeF 3 (invAB.hold "a")).1 (takeF 3 (invAB.hold "a")).2) :=
  ⟨by norm_num, by norm_num [invAB, Inventory.total, Inventory.buy, Inventory.empty, sumQ],
   sell_fifo_correct invAB ⟨"a", 5, 3⟩ (by norm_num)
     (by norm_num [invAB, Inventory.total, Inventory.buy, Inventory.empty, sumQ])⟩

/-- C3: the availability-checked sale (spec's strict variant, whose module is
not under src/) fails with `NotInStock` when the item's held list is absent
or empty, fails with `InsufficientStock` when the item is held but the
on-hand total is below the request, returns the ledger unchanged alongside
the error in both cases, and the two error kinds are distinct values. -/
theorem sellChecked_failures (i : Inventory) (o : Sale) :
    (i.hold o.name = [] → sellChecked i o = (i, some SellError.NotInStock)) ∧
    (i.hold o.name ≠ [] → i.total o.name < o.quantity →
      sellChecked i o = (i, some SellError.InsufficientStock)) ∧
    SellError.NotInStock ≠ SellError.InsufficientStock := by
  refine ⟨?_, ?_, by decide⟩
  · intro h
    simp [sellChecked, h]
  · intro h1 h2
    simp [sellChecked, h1, h2]

/-- C3 witness: both failure kinds on concrete ledgers, each left unchanged. -/
theorem sellChecked_failures_witness :
    (Inventory.empty.hold "a" = [] ∧
      sellChecked Inventory.empty ⟨"a", 1, 1⟩ = (Inventory.empty, some SellError.NotInStock)) ∧
    (invAB.hold "a" ≠ [] ∧ invAB.total "a" < (Sale.mk "a" 1 6).quantity ∧
      sellChecked invAB ⟨"a", 1, 6⟩ = (invAB, some SellError.InsufficientStock)) :=
  ⟨⟨rfl, (sellChecked_failures Inventory.empty ⟨"a", 1, 1⟩).1 rfl⟩,
   ⟨by simp [invAB, Inventory.buy, Inventory.empty],
    by norm_num [invAB, Inventory.total, Inventory.buy, Inventory.empty, sumQ],
    (sellChecked_failures invAB ⟨"a", 1, 6⟩).2.1
      (by simp [invAB, Inventory.buy, Inventory.empty])
      (by norm_num [invAB, Inventory.total, Inventory.buy, Inventory.empty, sumQ])⟩⟩

/-- C4 counterexample: selling quantity 0 of an item that is on hand does
append an empty parcel to the fulfilled history, contrary to the claim. -/
theorem sell_zero_appends_parcel :
    (invAB.sell ⟨"a", 7, 0⟩).fulfilled = [⟨"a", 7, []⟩] ∧
    ¬ (invAB.sell ⟨"a", 7, 0⟩).fulfilled = invAB.fulfilled := by
  have hne : invAB.hold "a" ≠ [] := by
    simp [invAB, Inventory.buy, Inventory.empty]
  have hge : ¬ invAB.total "a" < (Sale.mk "a" 7 0).quantity := by
    norm_num [invAB, Inventory.total, Inventory.buy, Inventory.empty, sumQ]
  have ht : takeF (Sale.mk "a" 7 0).quantity (invAB.hold "a") = ([], invAB.hold "a") :=
    takeF_nonpos _ _ le_rfl hne
  rw [sell_eq invAB ⟨"a", 7, 0⟩ hne hge]
  constructor
  · simp only [ht]
    simp [invAB, Inventory.buy, Inventory.empty]
  · simp only [ht]
    simp [invAB, Inventory.buy, Inventory.empty]

/-- C4 (amended): a sale of quantity 0 leaves every lot list and the expense
history unchanged; when the item's held list is empty (or its total is
negative) the inventory is returned unchanged with nothing appended, and
when the item is held with nonnegative total an empty parcel is appended to
the fulfilled history. -/
theorem sell_zero_quantity (i : Inventory) (o : Sale) (hq : o.quantity = 0) :
    (∀ n, (i.sell o).hold n = i.hold n) ∧
    (i.sell o).spent = i.spent ∧
    (i.hold o.name = [] ∨ i.total o.name < 0 → i.sell o = i) ∧
    (i.hold o.name ≠ [] → 0 ≤ i.total o.name →
      (i.sell o).fulfilled = i.fulfilled ++ [⟨o.name, o.price, []⟩]) := by
  by_cases h1 : i.hold o.name = []
  · have : i.sell o = i := sell_noop i o (Or.inl h1)
    rw [this]
    exact ⟨fun n => rfl, rfl, fun _ => rfl, fun h _ => absurd h1 h⟩
  · by_cases h2 : i.total o.name < 0
    · have : i.sell o = i := sell_noop i o (Or.inr (by rw [hq]; exact h2))
      rw [this]
      refine ⟨fun n => rfl, rfl, fun _ => rfl, fun _ h => absurd h2 (not_lt.mpr h)⟩
    · have hge : ¬ i.total o.name < o.quantity := by
        rw [hq]
        exact h2
      rw [sell_eq i o h1 hge]
      have htake : takeF o.quantity (i.hold o.name) = ([], i.hold o.name) :=
        takeF_nonpos _ _ (le_of_eq hq) h1
      refine ⟨?_, rfl, ?_, ?_⟩
      · intro n
        by_cases hn : n = o.name
        · simp [hn, htake]
        · simp [hn]
      · intro h
        rcases h with h | h
        · exact absurd h h1
        · exact absurd h h2
      · intro _ _
        simp [htake]

/-- C4 witness: the amended zero-quantity behavior on a concrete inventory. -/
theorem sell_zero_quantity_witness :
    (Sale.mk "a" 7 0).quantity = 0 ∧
    ((∀ n, (invAB.sell ⟨"a", 7, 0⟩).hold n = invAB.hold n) ∧
     (invAB.sell ⟨"a", 7, 0⟩).spent = invAB.spent ∧
     (invAB.hold "a" = [] ∨ invAB.total "a" < 0 → invAB.sell ⟨"a", 7, 0⟩ = invAB) ∧
     (invAB.hold "a" ≠ [] → 0 ≤ invAB.total "a" →
       (invAB.sell ⟨"a", 7, 0⟩).fulfilled = invAB.fulfilled ++ [⟨"a", 7, []⟩])) :=
  ⟨rfl, sell_zero_quantity invAB ⟨"a", 7, 0⟩ rfl⟩

/-- C9: the five financial metrics are pure folds over the recorded parcel
and expense history: revenue sums sale price times total fragment quantity
per parcel, cogs sums fragment cost times fragment quantity, gross margin is
revenue minus cogs, expenses sums recorded amounts, and earned is gross
margin minus expenses. -/
theorem metrics_are_folds (i : Inventory) :
    i.revenue = (i.fulfilled.map (fun p => p.price * sumQ p.batches)).sum ∧
    i.cogs = (i.fulfilled.map
      (fun p => (p.batches.map (fun b => b.purchase_price * b.quantity)).sum)).sum ∧
    i.gross_margin = i.revenue - i.cogs ∧
    i.expenses = (i.spent.map (fun e => e.amount)).sum ∧
    i.earned = i.gross_margin - i.expenses := by
  refine ⟨?_, rfl, rfl, rfl, rfl⟩
  simp only [Inventory.revenue, Inventory.sales, List.map_map]
  rfl

lemma purchased_cons (name : String) (op : Op) (rest : List Op) :
    purchased name (op :: rest) = purchased name [op] + purchased name rest := by
  cases op <;> simp [purchased]

/-- One buy or sell step changes each item's held-plus-sold tally by exactly
that step's purchased quantity for the item. -/
lemma conservation_step (i : Inventory) (op : Op) (name : String) :
    sumQ ((applyOp i op).hold name) + parcelsQ name (applyOp i op)
      = sumQ (i.hold name) + parcelsQ name i + purchased name [op] := by
  cases op with
  | buy n p q =>
    by_cases hn : name = n
    · subst hn
      simp [applyOp, Inventory.buy, parcelsQ, purchased]
      ring
    · have hn' : ¬ n = name := fun h => hn h.symm
      simp [applyOp, Inventory.buy, parcelsQ, purchased, hn, hn']
  | sell n p q =>
    by_cases hne : i.hold n = []
    · simp [applyOp, sell_noop i ⟨n, p, q⟩ (Or.inl hne), purchased]
    · by_cases hge : i.total n < q
      · simp [applyOp, sell_noop i ⟨n, p, q⟩ (Or.inr hge), purchased]
      · have hs := sell_eq i ⟨n, p, q⟩ hne hge
        by_cases hn : name = n
        · subst hn
          simp only [applyOp, hs, purchased, parcelsQ, List.filter_append]
          simp [Parcel.quantity]
          have := takeF_conserve q (i.hold name)
          linarith
        · have hn' : ¬ n = name := fun h => hn h.symm
          simp only [applyOp, hs, purchased, parcelsQ, List.filter_append]
          simp [hn, hn']

/-- Folding a sequence of operations adds exactly the purchased quantities to
each item's held-plus-sold tally. -/
lemma conservation_fold (ops : List Op) (i : Inventory) (name : String) :
    sumQ ((ops.foldl applyOp i).hold name) + parcelsQ name (ops.foldl applyOp i)
      = sumQ (i.hold name) + parcelsQ name i + purchased name ops := by
  induction ops generalizing i with
  | nil => simp [purchased]
  | cons op rest ih =>
    rw [List.foldl_cons, ih (applyOp i op), purchased_cons]
    have := conservation_step i op name
    linarith

/-- C2: for every item and every finite sequence of buys and sells run from
the empty inventory, the quantity still held plus the total fragment quantity
over all recorded parcels for that item equals the total purchased quantity
for that item. -/
theorem conservation (ops : List Op) (name : String) :
    sumQ ((runOps ops).hold name) + parcelsQ name (runOps ops) = purchased name ops := by
  have h := conservation_fold ops Inventory.empty name
  simpa [runOps, Inventory.empty, parcelsQ] using h

/-- C7: when the total quantity is positive, equalizing prices gives every
batch the unit cost worth / quantity and preserves both the total quantity
and the total worth of the stack. -/
theorem equalize_prices_converges (bs : List Batch) (h : 0 < sumQ bs) :
    (∀ b ∈ Stack.equalize_prices bs, b.purchase_price = worth bs / sumQ bs) ∧
    sumQ (Stack.equalize_prices bs) = sumQ bs ∧
    worth (Stack.equalize_prices bs) = worth bs := by
  have hne : sumQ bs ≠ 0 := ne_of_gt h
  have havg : Stack.average_price bs = worth bs / sumQ bs := by
    simp [Stack.average_price, hne]
  refine ⟨?_, ?_, ?_⟩
  · intro b hb
    simp [Stack.equalize_prices] at hb
    obtain ⟨b0, _, rfl⟩ := hb
    simp [havg]
  · simp [Stack.equalize_prices, sumQ, List.map_map]
    rfl
  · simp only [Stack.equalize_prices, worth, List.map_map, havg]
    have : (fun b => (worth bs / sumQ bs) * b.quantity) ∘ (fun b : Batch => Batch.mk (worth bs / sumQ bs) b.quantity)
        = fun b : Batch => (worth bs / sumQ bs) * b.quantity := rfl
    calc (bs.map ((fun b => b.purchase_price * b.quantity) ∘
            (fun b : Batch => Batch.mk (worth bs / sumQ bs) b.quantity))).sum
        = worth bs / sumQ bs * (bs.map (fun b => b.quantity)).sum := by
          rw [show ((fun b => b.purchase_price * b.quantity) ∘
              (fun b : Batch => Batch.mk (worth bs / sumQ bs) b.quantity))
              = fun b : Batch => (worth bs / sumQ bs) * b.quantity from rfl]
          exact List.sum_map_mul_left bs (fun b => b.quantity) _
      _ = worth bs := div_mul_cancel₀ (worth bs) hne

/-- C7 witness: two lots of quantities 2 at costs 1 and 3 blend to 2. -/
theorem equalize_prices_converges_witness :
    0 < sumQ [Batch.mk 1 2, Batch.mk 3 2] ∧
    ((∀ b ∈ Stack.equalize_prices [Batch.mk 1 2, Batch.mk 3 2],
        b.purchase_price = worth [Batch.mk 1 2, Batch.mk 3 2] / sumQ [Batch.mk 1 2, Batch.mk 3 2]) ∧
     sumQ (Stack.equalize_prices [Batch.mk 1 2, Batch.mk 3 2]) = sumQ [Batch.mk 1 2, Batch.mk 3 2] ∧
     worth (Stack.equalize_prices [Batch.mk 1 2, Batch.mk 3 2]) = worth [Batch.mk 1 2, Batch.mk 3 2]) :=
  ⟨by norm_num [sumQ], equalize_prices_converges [Batch.mk 1 2, Batch.mk 3 2] (by norm_num [sumQ])⟩

/-- C8 counterexample: a stack holding one zero-quantity batch at cost 5 has
total quantity 0, yet equalizing prices rewrites the batch's price to 0, so
the recomputation is not a no-op. -/
theorem equalize_prices_zero_not_noop :
    sumQ [Batch.mk 5 0] = 0 ∧
    Stack.equalize_prices [Batch.mk 5 0] = [Batch.mk 0 0] ∧
    Stack.equalize_prices [Batch.mk 5 0] ≠ [Batch.mk 5 0] := by
  refine ⟨by norm_num [sumQ], ?_, ?_⟩
  · simp [Stack.equalize_prices, Stack.average_price, sumQ]
  · simp [Stack.equalize_prices, Stack.average_price, sumQ]

lemma list_map_eq_self (f : Batch → Batch) (l : List Batch) :
    l.map f = l ↔ ∀ b ∈ l, f b = b := by
  induction l with
  | nil => simp
  | cons a t ih => simp [ih]

/-- C8 (amended): when the total quantity is 0, the average price is 0 and
equalizing prices maps every batch to price 0 with its quantity unchanged;
consequently it is a no-op precisely when every batch's purchase price is
already 0 (in particular when the batch list is empty). -/
theorem equalize_prices_zero_quantity (bs : List Batch) (h : sumQ bs = 0) :
    Stack.equalize_prices bs = bs.map (fun b => ⟨0, b.quantity⟩) ∧
    (Stack.equalize_prices bs = bs ↔ ∀ b ∈ bs, b.purchase_price = 0) := by
  have havg : Stack.average_price bs = 0 := by
    simp [Stack.average_price, h]
  have hmap : Stack.equalize_prices bs = bs.map (fun b => ⟨0, b.quantity⟩) := by
    simp [Stack.equalize_prices, havg]
  refine ⟨hmap, ?_⟩
  rw [hmap, list_map_eq_self]
  constructor
  · intro hf b hb
    have hfb := hf b hb
    obtain ⟨pp, qq⟩ := b
    simp at hfb
    exact hfb.symm
  · intro hp b hb
    have hpb := hp b hb
    obtain ⟨pp, qq⟩ := b
    simp at hpb ⊢
    exact hpb.symm

/-- C8 witness: the amended zero-total behavior on a one-batch stack whose
price is rewritten to 0. -/
theorem equalize_prices_zero_quantity_witness :
    sumQ [Batch.mk 5 0] = 0 ∧
    (Stack.equalize_prices [Batch.mk 5 0] = [Batch.mk 5 0].map (fun b => ⟨0, b.quantity⟩) ∧
     (Stack.equalize_prices [Batch.mk 5 0] = [Batch.mk 5 0] ↔
       ∀ b ∈ [Batch.mk 5 0], b.purchase_price = 0)) :=
  ⟨by norm_num [sumQ], equalize_prices_zero_quantity [Batch.mk 5 0] (by norm_num [sumQ])⟩

/-- Walking the stack from the front is the same loop as the inline FIFO
loop of `Inventory.sell`. -/
lemma take_true_eq (q : ℚ) (bs : List Batch) : Stack.take true q bs = takeF q bs := by
  induction bs generalizing q with
  | nil => simp [Stack.take]
  | cons b rest ih =>
    by_cases hq : q ≤ 0
    · simp [Stack.take, takeF_cons, hq]
    · by_cases hb : b.quantity ≤ q
      · simp [Stack.take, takeF_cons, hq, hb, ih]
      · simp [Stack.take, takeF_cons, hq, hb]

/-- Unfolding of the back-walking loop on a nonempty stack. -/
lemma take_false_cons (q : ℚ) (bs : List Batch) (h : bs ≠ []) :
    Stack.take false q bs =
      if q ≤ 0 then ([], bs)
      else if (bs.getLast h).quantity ≤ q then
        ((bs.getLast h) :: (Stack.take false (q - (bs.getLast h).quantity) bs.dropLast).1,
         (Stack.take false (q - (bs.getLast h).quantity) bs.dropLast).2)
      else
        ([⟨(bs.getLast h).purchase_price, q⟩],
          bs.dropLast ++ [⟨(bs.getLast h).purchase_price, (bs.getLast h).quantity - q⟩]) := by
  cases bs with
  | nil => exact absurd rfl h
  | cons b rest => rw [Stack.take]

/-- The back-walking loop on a reversed list is the front-walking loop on the
original, with the remainder reversed back. -/
lemma take_false_rev (l : List Batch) (q : ℚ) :
    Stack.take false q l.reverse = ((takeF q l).1, (takeF q l).2.reverse) := by
  induction l generalizing q with
  | nil => simp [Stack.take]
  | cons a t ih =>
    rw [List.reverse_cons]
    have hne : t.reverse ++ [a] ≠ [] := by simp
    rw [take_false_cons q _ hne]
    rw [List.getLast_concat, List.dropLast_concat]
    by_cases hq : q ≤ 0
    · simp [hq, takeF_cons, List.reverse_cons]
    · by_cases hb : a.quantity ≤ q
      · simp only [hq, hb, if_true, if_false, ite_false, ite_true, ih]
        simp [takeF_cons, hq, hb]
      · simp [hq, hb, takeF_cons, List.reverse_cons]

/-- C6: LIFO depletion take_last equals reversing the stack, applying the
FIFO depletion take_first, and reversing the untouched remainder back: the
consumed batch lists agree and the remainders correspond under reversal. -/
theorem take_last_is_reversed_take_first (bs : List Batch) (q : ℚ) :
    Stack.take_last q bs =
      ((Stack.take_first q bs.reverse).1, (Stack.take_first q bs.reverse).2.reverse) := by
  have h := take_false_rev bs.reverse q
  rw [List.reverse_reverse] at h
  rw [Stack.take_last, h, Stack.take_first, take_true_eq]

/-- C10: when the request strictly exceeds the total quantity of a stack of
nonnegative batches, both take_first and take_last signal no error: they
return every batch (take_last in back-to-front order), leave the stack
empty, and the returned quantities sum to the original total, which is less
than the request. -/
theorem take_overdraw (q : ℚ) (bs : List Batch)
    (hnn : ∀ b ∈ bs, 0 ≤ b.quantity) (hlt : sumQ bs < q) :
    Stack.take_first q bs = (bs, []) ∧
    Stack.take_last q bs = (bs.reverse, []) ∧
    sumQ (Stack.take_first q bs).1 = sumQ bs ∧
    sumQ (Stack.take_last q bs).1 = sumQ bs := by
  have h1 : takeF q bs = (bs, []) := takeF_all q bs hnn hlt
  have h1' : Stack.take_first q bs = (bs, []) := by
    rw [Stack.take_first, take_true_eq, h1]
  have hnn' : ∀ b ∈ bs.reverse, 0 ≤ b.quantity := by
    intro b hb
    exact hnn b (List.mem_reverse.mp hb)
  have h2r : takeF q bs.reverse = (bs.reverse, []) :=
    takeF_all q bs.reverse hnn' (by simpa using hlt)
  have h := take_false_rev bs.reverse q
  rw [List.reverse_reverse] at h
  have h2 : Stack.take_last q bs = (bs.reverse, []) := by
    rw [Stack.take_last, h, h2r]
    simp
  refine ⟨h1', h2, ?_, ?_⟩
  · rw [h1']
  · rw [h2]
    simp

/-- C10 witness: overdrawing a concrete two-lot stack. -/
theorem take_overdraw_witness :
    (∀ b ∈ [Batch.mk 1 2, Batch.mk 3 1], 0 ≤ b.quantity) ∧
    sumQ [Batch.mk 1 2, Batch.mk 3 1] < 5 ∧
    (Stack.take_first 5 [Batch.mk 1 2, Batch.mk 3 1] = ([Batch.mk 1 2, Batch.mk 3 1], []) ∧
     Stack.take_last 5 [Batch.mk 1 2, Batch.mk 3 1] = ([Batch.mk 1 2, Batch.mk 3 1].reverse, []) ∧
     sumQ (Stack.take_first 5 [Batch.mk 1 2, Batch.mk 3 1]).1 = sumQ [Batch.mk 1 2, Batch.mk 3 1] ∧
     sumQ (Stack.take_last 5 [Batch.mk 1 2, Batch.mk 3 1]).1 = sumQ [Batch.mk 1 2, Batch.mk 3 1]) :=
  ⟨by intro b hb; simp [List.mem_cons] at hb; rcases hb with rfl | rfl <;> norm_num,
   by norm_num [sumQ],
   take_overdraw 5 [Batch.mk 1 2, Batch.mk 3 1]
     (by intro b hb; simp [List.mem_cons] at hb; rcases hb with rfl | rfl <;> norm_num)
     (by norm_num [sumQ])⟩

/-- Taking q1 and then q2 from a stack that covers q1 + q2 leaves the same
remainder as taking q1 + q2 at once, and the two taken lists concatenate to
the single taken list, except possibly for one batch split in two at the q1
boundary (same unit cost, quantities summing to the single batch's). -/
lemma takeF_split (q1 q2 : ℚ) (bs : List Batch) (h1 : 0 ≤ q1) (h2 : 0 ≤ q2)
    (hs : q1 + q2 ≤ sumQ bs) :
    (takeF q2 (takeF q1 bs).2).2 = (takeF (q1 + q2) bs).2 ∧
    ((takeF q1 bs).1 ++ (takeF q2 (takeF q1 bs).2).1 = (takeF (q1 + q2) bs).1 ∨
      ∃ pre c a b post,
        (takeF q1 bs).1 = pre ++ [⟨c, a⟩] ∧
        (takeF q2 (takeF q1 bs).2).1 = ⟨c, b⟩ :: post ∧
        (takeF (q1 + q2) bs).1 = pre ++ ⟨c, a + b⟩ :: post) := by
  induction bs generalizing q1 with
  | nil =>
    simp at hs
    exact ⟨by simp, Or.inl (by simp)⟩
  | cons b rest ih =>
    by_cases hq1 : q1 ≤ 0
    · have hq10 : q1 = 0 := le_antisymm hq1 h1
      subst hq10
      have h0 : takeF 0 (b :: rest) = ([], b :: rest) :=
        takeF_nonpos 0 _ le_rfl (by simp)
      rw [h0, zero_add]
      exact ⟨rfl, Or.inl (by simp)⟩
    · have hq1' : 0 < q1 := lt_of_not_le hq1
      by_cases hb : b.quantity ≤ q1
      · have hb12 : b.quantity ≤ q1 + q2 := by linarith
        have hq12 : ¬ q1 + q2 ≤ 0 := by linarith
        have e1 : takeF q1 (b :: rest)
            = (b :: (takeF (q1 - b.quantity) rest).1, (takeF (q1 - b.quantity) rest).2) := by
          simp [takeF_cons, hq1, hb]
        have e12 : takeF (q1 + q2) (b :: rest)
            = (b :: (takeF (q1 + q2 - b.quantity) rest).1,
               (takeF (q1 + q2 - b.quantity) rest).2) := by
          simp [takeF_cons, hq12, hb12]
        have harg : q1 + q2 - b.quantity = (q1 - b.quantity) + q2 := by ring
        have h1' : 0 ≤ q1 - b.quantity := by linarith
        have hs' : (q1 - b.quantity) + q2 ≤ sumQ rest := by
          simp at hs
          linarith
        obtain ⟨ihr, ihd⟩ := ih (q1 - b.quantity) h1' hs'
        rw [e1, e12, harg]
        constructor
        · simpa using ihr
        · rcases ihd with h | ⟨pre, c, a, b', post, ha, hb2, hc⟩
          · exact Or.inl (by simp [h])
          · exact Or.inr ⟨b :: pre, c, a, b', post, by simp [ha], hb2, by simp [hc]⟩
      · have hbq : q1 < b.quantity := lt_of_not_le hb
        have e1 : takeF q1 (b :: rest)
            = ([⟨b.purchase_price, q1⟩], ⟨b.purchase_price, b.quantity - q1⟩ :: rest) := by
          simp [takeF_cons, hq1, hb]
        rw [e1]
        by_cases hq2 : q2 ≤ 0
        · have hq20 : q2 = 0 := le_antisymm hq2 h2
          subst hq20
          have e2 : takeF 0 (Batch.mk b.purchase_price (b.quantity - q1) :: rest)
              = ([], Batch.mk b.purchase_price (b.quantity - q1) :: rest) :=
            takeF_nonpos 0 _ le_rfl (by simp)
          rw [add_zero, e1, e2]
          exact ⟨rfl, Or.inl (by simp)⟩
        · have hq2' : 0 < q2 := lt_of_not_le hq2
          by_cases hsplit : b.quantity - q1 ≤ q2
          · have e2 : takeF q2 (Batch.mk b.purchase_price (b.quantity - q1) :: rest)
                = (Batch.mk b.purchase_price (b.quantity - q1)
                     :: (takeF (q2 - (b.quantity - q1)) rest).1,
                   (takeF (q2 - (b.quantity - q1)) rest).2) := by
              simp [takeF_cons, hq2, hsplit]
            have hb12 : b.quantity ≤ q1 + q2 := by linarith
            have hq12 : ¬ q1 + q2 ≤ 0 := by linarith
            have e12 : takeF (q1 + q2) (b :: rest)
                = (b :: (takeF (q1 + q2 - b.quantity) rest).1,
                   (takeF (q1 + q2 - b.quantity) rest).2) := by
              simp [takeF_cons, hq12, hb12]
            have harg : q2 - (b.quantity - q1) = q1 + q2 - b.quantity := by ring
            rw [e2, e12, harg]
            constructor
            · rfl
            · refine Or.inr ⟨[], b.purchase_price, q1, b.quantity - q1,
                (takeF (q1 + q2 - b.quantity) rest).1, rfl, rfl, ?_⟩
              have hbb : b = Batch.mk b.purchase_price (q1 + (b.quantity - q1)) := by
                cases b
                simp
              rw [List.nil_append, ← hbb]
          · have hsp : q2 < b.quantity - q1 := lt_of_not_le hsplit
            have e2 : takeF q2 (Batch.mk b.purchase_price (b.quantity - q1) :: rest)
                = ([⟨b.purchase_price, q2⟩],
                   ⟨b.purchase_price, b.quantity - q1 - q2⟩ :: rest) := by
              simp [takeF_cons, hq2, hsplit]
            have hb12 : ¬ b.quantity ≤ q1 + q2 := by
              intro h
              linarith
            have hq12 : ¬ q1 + q2 ≤ 0 := by linarith
            have e12 : takeF (q1 + q2) (b :: rest)
                = ([⟨b.purchase_price, q1 + q2⟩],
                   ⟨b.purchase_price, b.quantity - (q1 + q2)⟩ :: rest) := by
              simp [takeF_cons, hq12, hb12]
            rw [e2, e12]
            constructor
            · rw [show b.quantity - q1 - q2 = b.quantity - (q1 + q2) from by ring]
            · exact Or.inr ⟨[], b.purchase_price, q1, q2, [], rfl, rfl, rfl⟩

/-- C5: selling q1 and then q2 of the same item (q1, q2 > 0, q1 + q2 on hand)
consumes the same lots in the same order as one sale of q1 + q2: the
remaining lot state is identical in both runs, the two parcels' batch lists
concatenate to the single parcel's batch list except possibly for one batch
split in two at the q1 boundary (same unit cost, quantities summing to the
single batch's quantity). -/
theorem sell_split_boundary (i : Inventory) (name : String) (p1 p2 p12 q1 q2 : ℚ)
    (h1 : 0 < q1) (h2 : 0 < q2) (hs : q1 + q2 ≤ i.total name) :
    (∀ n, ((i.sell ⟨name, p1, q1⟩).sell ⟨name, p2, q2⟩).hold n
        = (i.sell ⟨name, p12, q1 + q2⟩).hold n) ∧
    ((i.sell ⟨name, p1, q1⟩).sell ⟨name, p2, q2⟩).fulfilled
      = i.fulfilled ++ [⟨name, p1, (takeF q1 (i.hold name)).1⟩,
                        ⟨name, p2, (takeF q2 (takeF q1 (i.hold name)).2).1⟩] ∧
    (i.sell ⟨name, p12, q1 + q2⟩).fulfilled
      = i.fulfilled ++ [⟨name, p12, (takeF (q1 + q2) (i.hold name)).1⟩] ∧
    ((takeF q1 (i.hold name)).1 ++ (takeF q2 (takeF q1 (i.hold name)).2).1
        = (takeF (q1 + q2) (i.hold name)).1 ∨
      ∃ pre c a b post,
        (takeF q1 (i.hold name)).1 = pre ++ [⟨c, a⟩] ∧
        (takeF q2 (takeF q1 (i.hold name)).2).1 = ⟨c, b⟩ :: post ∧
        (takeF (q1 + q2) (i.hold name)).1 = pre ++ ⟨c, a + b⟩ :: post) := by
  have hq1 : 0 ≤ q1 := le_of_lt h1
  have hq2 : 0 ≤ q2 := le_of_lt h2
  have htot : i.total name = sumQ (i.hold name) := rfl
  have hs' : q1 + q2 ≤ sumQ (i.hold name) := by
    rw [← htot]
    exact hs
  have hne : i.hold name ≠ [] := by
    intro h
    rw [h] at hs'
    simp at hs'
    linarith
  have hge1 : ¬ i.total name < q1 := not_lt.mpr (by rw [htot]; linarith)
  have hE1 := sell_eq i ⟨name, p1, q1⟩ hne hge1
  have A1 : (i.sell ⟨name, p1, q1⟩).hold name = (takeF q1 (i.hold name)).2 := by
    rw [hE1]
    simp
  have A2 : ∀ n, n ≠ name → (i.sell ⟨name, p1, q1⟩).hold n = i.hold n := by
    intro n hn
    rw [hE1]
    simp [hn]
  have A3 : (i.sell ⟨name, p1, q1⟩).fulfilled
      = i.fulfilled ++ [⟨name, p1, (takeF q1 (i.hold name)).1⟩] := by
    rw [hE1]
  have hsum1 : sumQ (takeF q1 (i.hold name)).1 = q1 :=
    takeF_sum _ _ hq1 (by linarith)
  have hcons := takeF_conserve q1 (i.hold name)
  have hr1 : sumQ (takeF q1 (i.hold name)).2 = sumQ (i.hold name) - q1 := by
    linarith
  have hne2 : (i.sell ⟨name, p1, q1⟩).hold name ≠ [] := by
    rw [A1]
    intro h
    rw [h] at hr1
    simp at hr1
    linarith
  have htot2 : (i.sell ⟨name, p1, q1⟩).total name = sumQ (takeF q1 (i.hold name)).2 := by
    show sumQ ((i.sell ⟨name, p1, q1⟩).hold name) = _
    rw [A1]
  have hge2 : ¬ (i.sell ⟨name, p1, q1⟩).total name < q2 :=
    not_lt.mpr (by rw [htot2, hr1]; linarith)
  have hE2 := sell_eq (i.sell ⟨name, p1, q1⟩) ⟨name, p2, q2⟩ hne2 hge2
  have B1 : ((i.sell ⟨name, p1, q1⟩).sell ⟨name, p2, q2⟩).hold name
      = (takeF q2 (takeF q1 (i.hold name)).2).2 := by
    rw [hE2]
    simp [A1]
  have B2 : ∀ n, n ≠ name → ((i.sell ⟨name, p1, q1⟩).sell ⟨name, p2, q2⟩).hold n = i.hold n := by
    intro n hn
    rw [hE2]
    simp only []
    rw [if_neg hn]
    exact A2 n hn
  have B3 : ((i.sell ⟨name, p1, q1⟩).sell ⟨name, p2, q2⟩).fulfilled
      = i.fulfilled ++ [⟨name, p1, (takeF q1 (i.hold name)).1⟩,
                        ⟨name, p2, (takeF q2 (takeF q1 (i.hold name)).2).1⟩] := by
    rw [hE2]
    show (i.sell ⟨name, p1, q1⟩).fulfilled
        ++ [⟨name, p2, (takeF q2 ((i.sell ⟨name, p1, q1⟩).hold name)).1⟩] = _
    rw [A3, A1]
    simp
  have hge12 : ¬ i.total name < q1 + q2 := not_lt.mpr (by rw [htot]; linarith)
  have hE12 := sell_eq i ⟨name, p12, q1 + q2⟩ hne hge12
  have C1h : (i.sell ⟨name, p12, q1 + q2⟩).hold name
      = (takeF (q1 + q2) (i.hold name)).2 := by
    rw [hE12]
    simp
  have C2h : ∀ n, n ≠ name → (i.sell ⟨name, p12, q1 + q2⟩).hold n = i.hold n := by
    intro n hn
    rw [hE12]
    simp [hn]
  have C3h : (i.sell ⟨name, p12, q1 + q2⟩).fulfilled
      = i.fulfilled ++ [⟨name, p12, (takeF (q1 + q2) (i.hold name)).1⟩] := by
    rw [hE12]
  obtain ⟨hrem, hdisj⟩ := takeF_split q1 q2 (i.hold name) hq1 hq2 hs'
  refine ⟨?_, B3, C3h, hdisj⟩
  intro n
  by_cases hn : n = name
  · subst hn
    rw [B1, C1h, hrem]
  · rw [B2 n hn, C2h n hn]

/-- C5 witness: the split-at-boundary property on a concrete two-lot
inventory, selling 3 then 2 against selling 5 at once. -/
theorem sell_split_boundary_witness :
    0 < (3:ℚ) ∧ 0 < (2:ℚ) ∧ (3:ℚ) + 2 ≤ invAB.total "a" ∧
    ((∀ n, ((invAB.sell ⟨"a", 5, 3⟩).sell ⟨"a", 6, 2⟩).hold n
        = (invAB.sell ⟨"a", 7, 3 + 2⟩).hold n) ∧
     ((invAB.sell ⟨"a", 5, 3⟩).sell ⟨"a", 6, 2⟩).fulfilled
       = invAB.fulfilled ++ [⟨"a", 5, (takeF 3 (invAB.hold "a")).1⟩,
                             ⟨"a", 6, (takeF 2 (takeF 3 (invAB.hold "a")).2).1⟩] ∧
     (invAB.sell ⟨"a", 7, 3 + 2⟩).fulfilled
       = invAB.fulfilled ++ [⟨"a", 7, (takeF (3 + 2) (invAB.hold "a")).1⟩] ∧
     ((takeF 3 (invAB.hold "a")).1 ++ (takeF 2 (takeF 3 (invAB.hold "a")).2).1
         = (takeF (3 + 2) (invAB.hold "a")).1 ∨
       ∃ pre c a b post,
         (takeF 3 (invAB.hold "a")).1 = pre ++ [⟨c, a⟩] ∧
         (takeF 2 (takeF 3 (invAB.hold "a")).2).1 = ⟨c, b⟩ :: post ∧
         (takeF (3 + 2) (invAB.hold "a")).1 = pre ++ ⟨c, a + b⟩ :: post)) :=
  ⟨by norm_num, by norm_num,
   by norm_num [invAB, Inventory.total, Inventory.buy, Inventory.empty, sumQ],
   sell_split_boundary invAB "a" 5 6 7 3 2 (by norm_num) (by norm_num)
     (by norm_num [invAB, Inventory.total, Inventory.buy, Inventory.empty, sumQ])⟩

end SellerRepo
